import Mathlib

/-!
Shallow embedding of the aggregation/merge pipeline of
`scripts/fetch-jobs.js` (the feature-complete variant including the
salary-enrichment stage, the cross-source dedup and the rolling-window
merge), together with theorems settling the specification claims.

Modelling conventions:
* JavaScript strings are Lean `String`s; machine time is `Int`
  (milliseconds since the epoch, as produced by `Date.now()` /
  `Date.prototype.getTime`).
* The built-in JavaScript date parser (`new Date(s).getTime()`) is an
  external platform capability, not repository code; it is modelled as an
  explicit parameter `parse : String → Option Int`, where `none` stands
  for `NaN` (an unparseable date).  All theorems quantify over `parse`;
  concrete witnesses instantiate it with `parseMillis`.
* `Array.prototype.sort(cmp)` is modelled as a stable sort
  (`jsSortBy`); per ECMAScript `SortCompare`, a comparator result of
  `NaN` is treated as `+0`, i.e. as a tie.
* A JavaScript `Map` is modelled as an association list with the
  insertion-order semantics of `Map.set`: setting an existing key
  replaces the value in place, setting a new key appends.
-/

namespace FetchJobs

/-! ### Generic string/list helpers (JS string built-ins) -/

/-- Substring containment (`String.prototype.includes`) on char lists. -/
def containsSub (hay needle : List Char) : Bool :=
  match hay with
  | [] => needle.isEmpty
  | _ :: rest => needle.isPrefixOf hay || containsSub rest needle

/-- `hay.includes(needle)` for Lean strings. -/
def strIncludes (hay needle : String) : Bool :=
  containsSub hay.toList needle.toList

/-- A JavaScript regex word character, `[A-Za-z0-9_]`. -/
def isWordChar (c : Char) : Bool :=
  c.isAlphanum || c == '_'

/-- JavaScript `\s` whitespace (the characters relevant to job titles). -/
def isJsSpace (c : Char) : Bool :=
  c == ' ' || c == '\t' || c == '\n' || c == '\r'

/-- Consume a run of whitespace characters (`\s*`). -/
def dropWsRest : List Char → List Char
  | [] => []
  | c :: rest => if isJsSpace c then dropWsRest rest else c :: rest

/-- Consume one-or-more whitespace characters (`\s+`); `none` if the
input does not start with whitespace. -/
def dropWsPlus : List Char → Option (List Char)
  | [] => none
  | c :: rest => if isJsSpace c then some (dropWsRest rest) else none

/-- Match a literal, returning the rest of the input on success. -/
def dropLit (lit s : List Char) : Option (List Char) :=
  if lit.isPrefixOf s then some (s.drop lit.length) else none

/-- Does `\bword\b` match at the head of `s`, given the character (if
any) immediately before `s`?  `prev = none` means start of string. -/
def wordHere (word : List Char) (prev : Option Char) (s : List Char) : Bool :=
  (match prev with
   | none => true
   | some c => !isWordChar c) &&
  word.isPrefixOf s &&
  (match (s.drop word.length).head? with
   | none => true
   | some c => !isWordChar c)

/-- Does `\bword\b` match anywhere in `s` (scanning with the previous
character threaded through)? -/
def hasWordAux (word : List Char) (prev : Option Char) : List Char → Bool
  | [] => wordHere word prev []
  | c :: rest => wordHere word prev (c :: rest) || hasWordAux word (some c) rest

/-- `/\bword\b/.test(s)` for a literal word. -/
def hasWord (word : String) (s : String) : Bool :=
  hasWordAux word.toList none s.toList

/-! ### JobRecord -/

/-- The canonical job record produced by every source adapter. -/
structure Job where
  id : String
  title : String
  url : String
  location : String
  department : String
  type : String
  postedDate : String
  salaryRange : Option String := none
  salarySource : Option String := none
deriving Repr, DecidableEq

/-! ### JavaScript `Map` as an ordered association list -/

/-- `Map.prototype.set`: replace in place if the key exists, else
append at the end (JS `Map`s preserve key insertion order). -/
def mapSet (m : List (String × Job)) (k : String) (v : Job) :
    List (String × Job) :=
  match m with
  | [] => [(k, v)]
  | (k', v') :: rest =>
    if k' = k then (k, v) :: rest else (k', v') :: mapSet rest k v

/-- `Map.prototype.get` (as an `Option`). -/
def mapGet (m : List (String × Job)) (k : String) : Option Job :=
  (m.find? (fun kv => kv.1 = k)).map (fun kv => kv.2)

/-! ### The JS sort on jobs -/

/-- The comparator `(a, b) => new Date(b.postedDate) - new Date(a.postedDate)`
as a "should `a` come no later than `b`" test: true iff the comparator
value is `<= 0`.  When either date is `NaN` the comparator value is
`NaN`, which ECMAScript `SortCompare` converts to `+0` — a tie. -/
def jsLe (parse : String → Option Int) (a b : Job) : Bool :=
  match parse a.postedDate, parse b.postedDate with
  | some ta, some tb => tb ≤ ta
  | _, _ => true

/-- Insert into a sorted list, keeping the inserted element before
elements it ties with that came later in the original list. -/
def insertLe (le : Job → Job → Bool) (x : Job) : List Job → List Job
  | [] => [x]
  | y :: ys => if le x y then x :: y :: ys else y :: insertLe le x ys

/-- Stable sort modelling `Array.prototype.sort` with a consistent
comparator (ECMAScript guarantees a stable sort; for the tie-heavy
`NaN` comparator the standard leaves the order implementation-defined
and this model fixes it as stable insertion order). -/
def jsSortBy (le : Job → Job → Bool) : List Job → List Job
  | [] => []
  | x :: xs => insertLe le x (jsSortBy le xs)

/-! ### Merge/Retention Engine (`mergeJobs`) -/

/-- `const ROLLING_WINDOW_DAYS = 7`. -/
def ROLLING_WINDOW_DAYS : Int := 7

/-- The body of the first loop of `mergeJobs`: seed the map from the
previously persisted records, keeping only those whose posted date
parses to a time at or after the cutoff (`NaN >= cutoff` is false, so
unparseable dates are dropped). -/
def seedStep (parse : String → Option Int) (cutoff : Int)
    (m : List (String × Job)) (job : Job) : List (String × Job) :=
  match parse job.postedDate with
  | some posted => if cutoff ≤ posted then mapSet m job.id job else m
  | none => m

/-- `mergeJobs(existingJobs, freshJobs)` from `scripts/fetch-jobs.js`,
with the ambient `Date.now()` supplied as `now` and the platform date
parser supplied as `parse`. -/
def mergeJobs (parse : String → Option Int) (now : Int)
    (existingJobs freshJobs : List Job) : List Job :=
  let cutoff := now - ROLLING_WINDOW_DAYS * 86400000
  let seeded := existingJobs.foldl (seedStep parse cutoff) []
  let overlaid := freshJobs.foldl (fun m job => mapSet m job.id job) seeded
  jsSortBy (jsLe parse) (overlaid.map (fun kv => kv.2))

/-- Digits-to-number accumulator; fails on the first non-digit. -/
def digitsToNat : List Char → Nat → Option Nat
  | [], acc => some acc
  | c :: rest, acc =>
    if c.isDigit then digitsToNat rest (acc * 10 + (c.toNat - 48)) else none

/-- The concrete date parser used by witnesses and counterexamples: a
nonempty decimal-digit string denotes that many milliseconds since the
epoch; anything else fails to parse (stands in for `NaN`).  It is one
admissible instantiation of the `parse` parameter that models the
platform's `new Date(s).getTime()`. -/
def parseMillis (s : String) : Option Int :=
  match s.toList with
  | [] => none
  | cs => (digitsToNat cs 0).map Int.ofNat

/-- `String.prototype.toLowerCase` (ASCII-relevant part). -/
def lowerStr (s : String) : String := String.mk (s.toList.map Char.toLower)

/-- `String.prototype.trim` on char lists. -/
def trimChars (cs : List Char) : List Char :=
  ((cs.dropWhile isJsSpace).reverse.dropWhile isJsSpace).reverse

/-- `String.prototype.trim` for Lean strings. -/
def trimStr (s : String) : String := String.mk (trimChars s.toList)

/-! ### Role Filter (`matchesRoleFilter`) -/

/-- The `linkedin` exclusion test
`/\b(staff|principal|lead|manager|director)\b/i.test(title)`
(case-insensitivity modelled by lowering the title). -/
def linkedInExcluded (title : String) : Bool :=
  let t := lowerStr title
  hasWord "staff" t || hasWord "principal" t || hasWord "lead" t ||
  hasWord "manager" t || hasWord "director" t

/-- Try `senior\s+software\s+engineer` at the head of `s` (already
lowercased). -/
def sweAt (s : List Char) : Bool :=
  match dropLit "senior".toList s with
  | none => false
  | some r1 =>
    match dropWsPlus r1 with
    | none => false
    | some r2 =>
      match dropLit "software".toList r2 with
      | none => false
      | some r3 =>
        match dropWsPlus r3 with
        | none => false
        | some r4 => (dropLit "engineer".toList r4).isSome

/-- `/senior\s+software\s+engineer/i.test(title)` (on a lowercased
char list): try every start position. -/
def sweSearch : List Char → Bool
  | [] => false
  | c :: rest => sweAt (c :: rest) || sweSearch rest

/-- The tail `\s+software\s+engineer` of the linkedin inclusion
pattern. -/
def srTail (r : List Char) : Bool :=
  match dropWsPlus r with
  | none => false
  | some r2 =>
    match dropLit "software".toList r2 with
    | none => false
    | some r3 =>
      match dropWsPlus r3 with
      | none => false
      | some r4 => (dropLit "engineer".toList r4).isSome

/-- Try `\b(senior|sr\.?)\s+software\s+engineer` at the head of `s`
(lowercased), where `prev` is the character just before `s` (for the
word boundary); `sr\.?` backtracks over the optional dot. -/
def seniorSweAt (prev : Option Char) (s : List Char) : Bool :=
  (match prev with
   | none => true
   | some c => !isWordChar c) &&
  ((match dropLit "senior".toList s with
    | some r => srTail r
    | none => false) ||
   (match dropLit "sr".toList s with
    | some r =>
      match dropLit ".".toList r with
      | some r' => srTail r' || srTail r
      | none => srTail r
    | none => false))

/-- `/\b(senior|sr\.?)\s+software\s+engineer/i.test(title)` on a
lowercased char list: try every start position, threading the previous
character for the boundary test. -/
def seniorSweSearch (prev : Option Char) : List Char → Bool
  | [] => false
  | c :: rest => seniorSweAt prev (c :: rest) || seniorSweSearch (some c) rest

/-- `matchesRoleFilter(title, company)` from `scripts/fetch-jobs.js`:
strict per-company role matching.  The `/i` regex flags are modelled
by matching the lowercased title against lowercase patterns. -/
def matchesRoleFilter (title : String) (company : String) : Bool :=
  let t := lowerStr title
  match company with
  | "salesforce" =>
    hasWord "smts" t || strIncludes t "senior member of technical staff"
  | "booking" => sweSearch t.toList
  | "linkedin" =>
    if linkedInExcluded title then false
    else seniorSweSearch none t.toList
  | _ => false

/-! ### Enrichment stage (salary lookup and `filterBySalary`) -/

/-- `const MIN_SALARY_LPA = 50`. -/
def MIN_SALARY_LPA : Int := 50

/-- The curated `LEVELS_FYI_INDIA_TC` table, in source (insertion)
order: lowercase company name → max total compensation in LPA. -/
def LEVELS_FYI_INDIA_TC : List (String × Int) :=
  [("atlassian", 198), ("uber", 155), ("rubrik", 151), ("stripe", 137),
   ("apple", 137), ("snowflake", 120), ("palantir", 120), ("microsoft", 110),
   ("linkedin", 110), ("datadog", 110), ("databricks", 103),
   ("hashicorp", 100), ("gitlab", 100), ("confluent", 95),
   ("salesforce", 91), ("intuit", 91), ("palo alto networks", 90),
   ("cloudflare", 90), ("elastic", 90), ("flipkart", 86), ("nutanix", 85),
   ("zscaler", 85), ("new relic", 85), ("vmware", 80), ("broadcom", 80),
   ("netapp", 80), ("arista networks", 80), ("razorpay", 80), ("akamai", 75),
   ("phonepe", 75), ("google", 73), ("oracle", 70), ("cisco", 70),
   ("f5 networks", 70), ("juniper networks", 70), ("adobe", 70),
   ("amazon", 68), ("aws", 68), ("booking.com", 66), ("fortinet", 65),
   ("servicenow", 65), ("goldman sachs", 64), ("walmart", 62),
   ("morgan stanley", 54), ("paypal", 51), ("cred", 50), ("visa", 40),
   ("groww", 40), ("paytm", 35), ("zerodha", 35), ("mastercard", 33),
   ("bharatpe", 32), ("hdfc bank", 28), ("bajaj finance", 28),
   ("upstox", 28), ("icici bank", 25), ("genpact", 25), ("hdfc", 24),
   ("tcs", 22), ("infosys", 22), ("wipro", 20), ("cognizant", 22),
   ("capgemini", 20), ("hcl", 20), ("yes bank", 18), ("concentrix", 18),
   ("federal bank", 16), ("bandhan bank", 15), ("epam systems", 28),
   ("epam", 28), ("cgi", 16), ("freshworks", 26), ("agoda", 59),
   ("roku", 90), ("coinbase", 69), ("rippling", 60), ("doordash", 64),
   ("commonwealth bank", 38), ("uplers", 22)]

/-- `lookupLevelsFyi(companyName)`: exact key hit first, then the
first table key (in insertion order) related by substring containment
in either direction. -/
def lookupLevelsFyi (companyName : String) : Option Int :=
  let c := trimStr (lowerStr companyName)
  match LEVELS_FYI_INDIA_TC.find? (fun kv => kv.1 = c) with
  | some kv => some kv.2
  | none =>
    (LEVELS_FYI_INDIA_TC.find? (fun kv =>
        strIncludes c kv.1 || strIncludes kv.1 c)).map (fun kv => kv.2)

/-- Replace every (non-overlapping, left-to-right) occurrence of `f`
by `t` (`String.prototype.replace` with a global literal pattern). -/
def replaceSub (f t : List Char) : List Char → List Char
  | [] => []
  | c :: rest =>
    if h : f ≠ [] ∧ f.isPrefixOf (c :: rest) then
      t ++ replaceSub f t ((c :: rest).drop f.length)
    else
      c :: replaceSub f t rest
termination_by cs => cs.length
decreasing_by
  · simp only [List.length_drop, List.length_cons]
    have hf : 1 ≤ f.length := by
      cases f with
      | nil => exact absurd rfl h.1
      | cons a l => exact Nat.succ_le_succ (Nat.zero_le _)
    omega
  · simp [Nat.lt_succ_self]

/-- Is `c` kept verbatim by the slug pattern `[^a-z0-9]+`? -/
def isSlugChar (c : Char) : Bool :=
  ('a' ≤ c && c ≤ 'z') || ('0' ≤ c && c ≤ '9')

/-- Drop the current run of non-slug characters. -/
def dropNonSlug : List Char → List Char
  | [] => []
  | c :: rest => if isSlugChar c then c :: rest else dropNonSlug rest

/-- `.replace(/[^a-z0-9]+/g, '-')`: collapse every maximal run of
non-slug characters into a single dash. -/
def slugCollapse : List Char → List Char
  | [] => []
  | c :: rest =>
    if isSlugChar c then c :: slugCollapse rest
    else '-' :: slugCollapse (dropNonSlug rest)
termination_by cs => cs.length
decreasing_by
  · simp [Nat.lt_succ_self]
  · have key : ∀ cs : List Char, (dropNonSlug cs).length ≤ cs.length := by
      intro cs
      induction cs with
      | nil => simp [dropNonSlug]
      | cons c rest ih =>
        simp only [dropNonSlug]
        split
        · simp
        · exact Nat.le_trans ih (Nat.le_succ _)
    exact Nat.lt_succ_of_le (key rest)

/-- `.replace(/^-|-$/g, '')`: remove one leading and one trailing
dash. -/
def stripEdgeDashes (cs : List Char) : List Char :=
  let a := match cs with
           | '-' :: rest => rest
           | other => other
  match a.reverse with
  | '-' :: rest => rest.reverse
  | _ => a

/-- `companyToSlug(name)` from `scripts/fetch-jobs.js`. -/
def companyToSlug (name : String) : String :=
  let cs := (lowerStr name).toList
  let cs := replaceSub "&amp;".toList "and".toList cs
  let cs := replaceSub "&".toList "and".toList cs
  String.mk (stripEdgeDashes (slugCollapse cs))

/-- One entry of the persisted AmbitionBox salary cache
(`salary-cache.json`): `{ minLPA, maxLPA, source, ts }`, with `none`
standing for JSON `null`/absent. -/
structure CacheEntry where
  minLPA : Option Int := none
  maxLPA : Option Int := none
  source : Option String := none
  ts : Int := 0
deriving Repr, DecidableEq

/-- The salary cache: a JSON object keyed by company slug. -/
def cacheGet (cache : List (String × CacheEntry)) (k : String) :
    Option CacheEntry :=
  (cache.find? (fun kv => kv.1 = k)).map (fun kv => kv.2)

/-- `getSalaryDataSync(companyName, cache)`: levels.fyi curated data
first, else a cache entry with a usable (non-null) `maxLPA`; `none`
models the `{ maxLPA: null, source: null }` no-data result. -/
def getSalaryDataSync (companyName : String)
    (cache : List (String × CacheEntry)) : Option (Int × String) :=
  match lookupLevelsFyi companyName with
  | some levelsTc => some (levelsTc, "levels.fyi")
  | none =>
    match cacheGet cache (companyToSlug companyName) with
    | some cached =>
      match cached.maxLPA with
      | some v => some (v, "ambitionbox")
      | none => none
    | none => none

/-- `job.salaryRange = maxLPA + ' LPA'; job.salarySource = source`. -/
def annotateSalary (job : Job) (maxLPA : Int) (src : String) : Job :=
  { job with salaryRange := some (toString maxLPA ++ " LPA"),
             salarySource := some src }

/-- One iteration of the pass/reject loop of `filterBySalary`. -/
def salaryStep (cache : List (String × CacheEntry))
    (passed : List Job) (job : Job) : List Job :=
  match getSalaryDataSync job.department cache with
  | none => passed ++ [job]
  | some (maxLPA, src) =>
    if MIN_SALARY_LPA ≤ maxLPA then passed ++ [annotateSalary job maxLPA src]
    else passed

/-- The synchronous pass/reject core of `filterBySalary(jobs,
salaryCache)` (the preceding async part only populates the cache,
which is supplied here already populated). -/
def filterBySalary (cache : List (String × CacheEntry))
    (jobs : List Job) : List Job :=
  jobs.foldl (salaryStep cache) []

/-! ### Cross-source dedup (from `main`) -/

/-- `title.toLowerCase().trim()`. -/
def normalizeTitle (s : String) : String := trimStr (lowerStr s)

/-- The `careersTitles` set built in `main` from the three primary
per-company sources (a JS `Set` modelled by list membership). -/
def careersTitles (salesforce booking linkedin : List Job) : List String :=
  (salesforce ++ booking ++ linkedin).map (fun j => normalizeTitle j.title)

/-- `easyAllDeduped`: remove Easy Apply records whose normalized title
is already covered by a careers section. -/
def dedupeEasyApply (salesforce booking linkedin easyAll : List Job) :
    List Job :=
  easyAll.filter (fun j =>
    !(careersTitles salesforce booking linkedin).contains
      (normalizeTitle j.title))

/-! ### Salesforce adapter (`fetchSalesforce`) -/

/-- `String.prototype.split` with a (nonempty) literal separator, on
char lists; `acc` holds the current segment reversed. -/
def splitOnAux (sep : List Char) (acc : List Char) :
    List Char → List (List Char)
  | [] => [acc.reverse]
  | c :: rest =>
    if h : sep ≠ [] ∧ sep.isPrefixOf (c :: rest) then
      acc.reverse :: splitOnAux sep [] ((c :: rest).drop sep.length)
    else
      splitOnAux sep (c :: acc) rest
termination_by s => s.length
decreasing_by
  · simp only [List.length_drop, List.length_cons]
    have hf : 1 ≤ sep.length := by
      cases sep with
      | nil => exact absurd rfl h.1
      | cons a l => exact Nat.succ_le_succ (Nat.zero_le _)
    omega
  · simp [Nat.lt_succ_self]

/-- `s.split(sep)` on char lists. -/
def splitOnSub (sep s : List Char) : List (List Char) := splitOnAux sep [] s

/-- Line terminators that the regex metacharacter `.` refuses. -/
def isLineTerm (c : Char) : Bool :=
  c == '\n' || c == '\r' || c == ' ' || c == ' '

/-- The `(.+?)]]></tag>` part of the CDATA regex: non-greedily collect
at least one non-line-terminator character until the closer follows. -/
def cdataContent (closer : List Char) :
    List Char → List Char → Option (List Char)
  | acc, rest =>
    if !acc.isEmpty && closer.isPrefixOf rest then some acc.reverse
    else
      match rest with
      | [] => none
      | c :: rs =>
        if isLineTerm c then none else cdataContent closer (c :: acc) rs

/-- The leftmost match of `<tag><![CDATA[(.+?)]]></tag>`: try the
opener at each position, and on a content failure resume scanning at
the next position (as the regex engine does). -/
def findCDATA (opener closer : List Char) : List Char → Option (List Char)
  | [] => none
  | c :: rest =>
    match dropLit opener (c :: rest) with
    | some r =>
      match cdataContent closer [] r with
      | some content => some content
      | none => findCDATA opener closer rest
    | none => findCDATA opener closer rest

/-- The `get(tag)` helper inside `fetchSalesforce`: first CDATA match
for the tag, trimmed; the empty string when there is no match. -/
def getTag (tag : String) (block : List Char) : String :=
  let opener := ("<" ++ tag ++ "><![CDATA[").toList
  let closer := ("]]></" ++ tag ++ ">").toList
  match findCDATA opener closer block with
  | some content => trimStr (String.mk content)
  | none => ""

/-- `[city, state, country].filter(Boolean).join(', ')`. -/
def joinComma (parts : List String) : String :=
  String.intercalate ", " (parts.filter (fun s => s ≠ ""))

/-- The per-block body of the `fetchSalesforce` loop: skip non-India
blocks and non-matching titles, otherwise build the record. -/
def salesforceStep (jobs : List Job) (block : List Char) : List Job :=
  let country := getTag "country" block
  if country ≠ "India" then jobs
  else
    let title := getTag "title" block
    if !matchesRoleFilter title "salesforce" then jobs
    else
      jobs ++ [{ id := getTag "requisitionid" block,
                 title := title,
                 url := getTag "url" block,
                 location := joinComma
                   [getTag "city" block, getTag "state" block, country],
                 department := getTag "category" block,
                 type := getTag "jobtype" block,
                 postedDate := getTag "date" block }]

/-- The success path of `fetchSalesforce`: split the feed on `<job>`,
drop the preamble, extract records, sort by posted date descending. -/
def parseSalesforceXml (parse : String → Option Int) (xml : String) :
    List Job :=
  let blocks := (splitOnSub "<job>".toList xml.toList).drop 1
  jsSortBy (jsLe parse) (blocks.foldl salesforceStep [])

/-- `fetchSalesforce()` as a function of the outcome of its single
`httpGet` retrieval: the whole body is inside `try { ... } catch {
return [] }`, so any upstream failure (network error, non-2xx status,
timeout — all surfaced as a rejected `httpGet` promise) yields `[]`. -/
def fetchSalesforce (parse : String → Option Int)
    (res : Except String String) : List Job :=
  match res with
  | .ok xml => parseSalesforceXml parse xml
  | .error _ => []

/-! ### Orchestration (`main`) -/

/-- One per-source section of the output artifact. -/
structure SourceOut where
  name : String
  targetRole : String
  careersUrl : String
  jobs : List Job
deriving Repr, DecidableEq

/-- The four source sections of the artifact, in source order. -/
structure Companies where
  salesforce : SourceOut
  booking : SourceOut
  linkedin : SourceOut
  linkedin_easy_all : SourceOut
deriving Repr, DecidableEq

/-- The persisted artifact `data/jobs.json`. -/
structure Output where
  fetchedAt : String
  companies : Companies
deriving Repr, DecidableEq

/-- The previous artifact's per-source job lists, after `main`'s
`(prevCompanies[key] && prevCompanies[key].jobs) || []` fallback. -/
structure PrevData where
  salesforce : List Job := []
  booking : List Job := []
  linkedin : List Job := []
  linkedin_easy_all : List Job := []
deriving Repr, DecidableEq

/-- The pure core of `main` after the four adapters have settled:
cross-source dedup of the Easy Apply list, salary filtering, and the
four rolling-window merges into the output artifact. -/
def buildOutput (parse : String → Option Int) (now : Int)
    (fetchedAt : String) (prev : PrevData)
    (salesforce booking linkedin linkedinEasyAll : List Job)
    (salaryCache : List (String × CacheEntry)) : Output :=
  let easyAllDeduped := dedupeEasyApply salesforce booking linkedin
    linkedinEasyAll
  let easyAllSalaryFiltered := filterBySalary salaryCache easyAllDeduped
  { fetchedAt := fetchedAt,
    companies :=
      { salesforce :=
          { name := "Salesforce",
            targetRole := "Senior Member of Technical Staff (SMTS)",
            careersUrl := "https://careers.salesforce.com/en/jobs/?country=India",
            jobs := mergeJobs parse now prev.salesforce salesforce },
        booking :=
          { name := "Booking.com",
            targetRole := "Senior Software Engineer",
            careersUrl := "https://jobs.booking.com/booking/jobs?location=India",
            jobs := mergeJobs parse now prev.booking booking },
        linkedin :=
          { name := "LinkedIn",
            targetRole := "Senior Software Engineer",
            careersUrl := "https://www.linkedin.com/jobs/search/?f_C=1337&geoId=102713980",
            jobs := mergeJobs parse now prev.linkedin linkedin },
        linkedin_easy_all :=
          { name := "LinkedIn Easy Apply",
            targetRole := "Senior+ Backend · 50+ LPA · All Companies · India",
            careersUrl := "https://www.linkedin.com/jobs/search/?keywords=Senior+Software+Engineer&location=India&f_AL=true",
            jobs := mergeJobs parse now prev.linkedin_easy_all
              easyAllSalaryFiltered } } }

/-- A run of `main` in which the Salesforce adapter's retrieval
outcome is given explicitly and the other adapters' settled outputs
are given as lists.  Every adapter recovers its own upstream failures
locally (returning `[]`/partial results), so the orchestration itself
never rejects; `Except.ok` models the process finishing with exit code
0 (the file-system write, `main`'s only remaining throw site, is
outside the model). -/
def runMain (parse : String → Option Int) (now : Int) (fetchedAt : String)
    (prev : PrevData) (salesforceRes : Except String String)
    (booking linkedin linkedinEasyAll : List Job)
    (salaryCache : List (String × CacheEntry)) : Except String Output :=
  Except.ok (buildOutput parse now fetchedAt prev
    (fetchSalesforce parse salesforceRes) booking linkedin linkedinEasyAll
    salaryCache)

/-! ### Proof infrastructure: derived views of the merge engine -/

/-- The retention test of the seeding loop: does the record's posted
date parse to a time at or after the cutoff? -/
def inWindow (parse : String → Option Int) (cutoff : Int) (job : Job) : Bool :=
  match parse job.postedDate with
  | some posted => cutoff ≤ posted
  | none => false

/-- The overlay loop: `for (const job of jobs) byId.set(String(job.id), job)`. -/
def overlayMap (m : List (String × Job)) (jobs : List Job) :
    List (String × Job) :=
  jobs.foldl (fun m job => mapSet m job.id job) m

/-- The last record of `jobs` carrying id `k` (the one a sequence of
`Map.set` calls leaves in place). -/
def lastWith (jobs : List Job) (k : String) : Option Job :=
  jobs.reverse.find? (fun j => j.id = k)

/-- View a job list as an association list keyed by id. -/
def zipIds (jobs : List Job) : List (String × Job) :=
  jobs.map (fun j => (j.id, j))

/-- Map well-formedness: every key is its value's id, and keys are
pairwise distinct. -/
def MapOk (m : List (String × Job)) : Prop :=
  (∀ p ∈ m, p.1 = p.2.id) ∧ (m.map (fun p => p.1)).Nodup

/-- The cutoff used by `mergeJobs`. -/
def mergeCutoff (now : Int) : Int := now - ROLLING_WINDOW_DAYS * 86400000

/-! ### Lemmas about the JS `Map` model -/

theorem mapSet_keys_of_mem {m : List (String × Job)} {k : String} (v : Job)
    (h : k ∈ m.map (fun p => p.1)) :
    (mapSet m k v).map (fun p => p.1) = m.map (fun p => p.1) := by
  induction m with
  | nil => simp at h
  | cons p rest ih =>
    obtain ⟨k', v'⟩ := p
    simp only [mapSet]
    by_cases hk : k' = k
    · simp [hk]
    · rw [if_neg hk]
      simp only [List.map_cons, List.mem_cons] at h
      simp only [List.map_cons, List.cons.injEq, true_and]
      exact ih (h.resolve_left (fun he => hk he.symm))

theorem mapSet_eq_append_of_not_mem {m : List (String × Job)} {k : String}
    (v : Job) (h : k ∉ m.map (fun p => p.1)) :
    mapSet m k v = m ++ [(k, v)] := by
  induction m with
  | nil => simp [mapSet]
  | cons p rest ih =>
    obtain ⟨k', v'⟩ := p
    simp only [List.map_cons, List.mem_cons, not_or] at h
    have hk : ¬ k' = k := fun he => h.1 he.symm
    simp only [mapSet, if_neg hk, List.cons_append, List.cons.injEq, true_and]
    exact ih h.2

theorem mapGet_mapSet_self (m : List (String × Job)) (k : String) (v : Job) :
    mapGet (mapSet m k v) k = some v := by
  induction m with
  | nil => simp [mapSet, mapGet]
  | cons p rest ih =>
    obtain ⟨k', v'⟩ := p
    simp only [mapSet]
    by_cases hk : k' = k
    · subst hk
      simp [mapGet, List.find?]
    · rw [if_neg hk]
      simpa [mapGet, List.find?, hk] using ih

theorem mapGet_mapSet_ne (m : List (String × Job)) {k k' : String} (v : Job)
    (h : k' ≠ k) : mapGet (mapSet m k v) k' = mapGet m k' := by
  induction m with
  | nil => simp [mapSet, mapGet, List.find?, Ne.symm h]
  | cons p rest ih =>
    obtain ⟨k0, v0⟩ := p
    simp only [mapSet]
    by_cases hk : k0 = k
    · subst hk
      simp [mapGet, List.find?, Ne.symm h]
    · rw [if_neg hk]
      by_cases hk' : k0 = k'
      · simp [mapGet, List.find?, hk']
      · simpa [mapGet, List.find?, hk'] using ih

theorem mem_of_mem_mapSet {m : List (String × Job)} {k : String} {v : Job}
    {p : String × Job} (h : p ∈ mapSet m k v) : p ∈ m ∨ p = (k, v) := by
  induction m with
  | nil => simpa [mapSet] using h
  | cons q rest ih =>
    obtain ⟨k0, v0⟩ := q
    simp only [mapSet] at h
    by_cases hk : k0 = k
    · rw [if_pos hk] at h
      rcases List.mem_cons.mp h with h | h
      · exact Or.inr h
      · exact Or.inl (List.mem_cons_of_mem _ h)
    · rw [if_neg hk] at h
      rcases List.mem_cons.mp h with h | h
      · exact Or.inl (h ▸ List.mem_cons_self _ _)
      · rcases ih h with h | h
        · exact Or.inl (List.mem_cons_of_mem _ h)
        · exact Or.inr h

theorem mapSet_mapOk {m : List (String × Job)} {v : Job}
    (h : MapOk m) : MapOk (mapSet m v.id v) := by
  constructor
  · intro p hp
    rcases mem_of_mem_mapSet hp with hp | hp
    · exact h.1 p hp
    · simp [hp]
  · by_cases hk : v.id ∈ m.map (fun p => p.1)
    · rw [mapSet_keys_of_mem v hk]
      exact h.2
    · rw [mapSet_eq_append_of_not_mem v hk]
      simp only [List.map_append, List.map_cons, List.map_nil]
      rw [List.nodup_append]
      refine ⟨h.2, List.nodup_singleton _, ?_⟩
      intro x hx hx'
      simp only [List.mem_singleton] at hx'
      exact hk (hx' ▸ hx)

theorem mapGet_eq_some_of_mem {m : List (String × Job)} {p : String × Job}
    (hok : MapOk m) (hp : p ∈ m) : mapGet m p.1 = some p.2 := by
  induction m with
  | nil => simp at hp
  | cons q rest ih =>
    obtain ⟨k0, v0⟩ := q
    rcases List.mem_cons.mp hp with h | h
    · subst h
      simp [mapGet, List.find?]
    · have hq : ¬ k0 = p.1 := by
        intro he
        have hmem : p.1 ∈ rest.map (fun r => r.1) := List.mem_map.mpr ⟨p, h, rfl⟩
        have hnd := (List.nodup_cons.mp hok.2).1
        exact hnd (he ▸ hmem)
      have hok' : MapOk rest :=
        ⟨fun r hr => hok.1 r (List.mem_cons_of_mem _ hr),
         (List.nodup_cons.mp hok.2).2⟩
      simpa [mapGet, List.find?, hq] using ih hok' h

theorem mem_of_mapGet_eq_some {m : List (String × Job)} {k : String} {v : Job}
    (h : mapGet m k = some v) : (k, v) ∈ m := by
  induction m with
  | nil => simp [mapGet] at h
  | cons q rest ih =>
    obtain ⟨k0, v0⟩ := q
    by_cases hk : k0 = k
    · subst hk
      have : v0 = v := by
        simpa [mapGet, List.find?] using h
      exact this ▸ List.mem_cons_self _ _
    · have h' : mapGet rest k = some v := by
        simpa [mapGet, List.find?, hk] using h
      exact List.mem_cons_of_mem _ (ih h')

theorem overlayMap_nil (m : List (String × Job)) : overlayMap m [] = m := rfl

theorem overlayMap_cons (m : List (String × Job)) (f : Job) (rest : List Job) :
    overlayMap m (f :: rest) = overlayMap (mapSet m f.id f) rest := rfl

theorem overlay_get (jobs : List Job) :
    ∀ (m : List (String × Job)) (k : String),
      mapGet (overlayMap m jobs) k = (lastWith jobs k).or (mapGet m k) := by
  induction jobs with
  | nil => intro m k; simp [overlayMap, lastWith]
  | cons f rest ih =>
    intro m k
    rw [overlayMap_cons, ih]
    have hl : lastWith (f :: rest) k
        = (lastWith rest k).or (if f.id = k then some f else none) := by
      simp only [lastWith, List.reverse_cons, List.find?_append]
      congr 1
      by_cases hk : f.id = k
      · simp [List.find?, hk]
      · simp [List.find?, hk]
    rw [hl]
    by_cases hk : f.id = k
    · subst hk
      rw [mapGet_mapSet_self]
      simp [Option.or_assoc]
    · rw [mapGet_mapSet_ne _ _ (fun he => hk he.symm)]
      simp [hk]

theorem overlay_mapOk {m : List (String × Job)} (jobs : List Job)
    (h : MapOk m) : MapOk (overlayMap m jobs) := by
  induction jobs generalizing m with
  | nil => exact h
  | cons f rest ih => exact ih (mapSet_mapOk h)

theorem snd_mem_of_mem_mapSet {m : List (String × Job)} {k : String}
    {w v : Job} (h : v ∈ (mapSet m k w).map (fun p => p.2)) :
    v ∈ m.map (fun p => p.2) ∨ v = w := by
  rcases List.mem_map.mp h with ⟨p, hp, hv⟩
  rcases mem_of_mem_mapSet hp with hp | hp
  · exact Or.inl (hv ▸ List.mem_map.mpr ⟨p, hp, rfl⟩)
  · subst hp
    exact Or.inr hv.symm

theorem overlay_values_subset {jobs : List Job} :
    ∀ {m : List (String × Job)} {v : Job},
      v ∈ (overlayMap m jobs).map (fun p => p.2) →
      v ∈ m.map (fun p => p.2) ∨ v ∈ jobs := by
  induction jobs with
  | nil => intro m v h; exact Or.inl h
  | cons f rest ih =>
    intro m v h
    rw [overlayMap_cons] at h
    rcases ih h with h | h
    · rcases snd_mem_of_mem_mapSet h with h | h
      · exact Or.inl h
      · exact Or.inr (h ▸ List.mem_cons_self _ _)
    · exact Or.inr (List.mem_cons_of_mem _ h)

theorem overlay_keys_of_mem {jobs : List Job} :
    ∀ {m : List (String × Job)},
      (∀ f ∈ jobs, f.id ∈ m.map (fun p => p.1)) →
      (overlayMap m jobs).map (fun p => p.1) = m.map (fun p => p.1) := by
  induction jobs with
  | nil => intro m _; rfl
  | cons f rest ih =>
    intro m h
    rw [overlayMap_cons]
    have hk := mapSet_keys_of_mem f (h f (List.mem_cons_self _ _))
    rw [ih, hk]
    intro g hg
    rw [hk]
    exact h g (List.mem_cons_of_mem _ hg)

theorem overlay_eq_append_zip {jobs : List Job} :
    ∀ {m : List (String × Job)},
      (jobs.map (fun j => j.id)).Nodup →
      (∀ f ∈ jobs, f.id ∉ m.map (fun p => p.1)) →
      overlayMap m jobs = m ++ zipIds jobs := by
  induction jobs with
  | nil => intro m _ _; simp [overlayMap, zipIds]
  | cons f rest ih =>
    intro m hnd hdis
    have hnd' : f.id ∉ rest.map (fun j => j.id) ∧
        (rest.map (fun j => j.id)).Nodup := by
      rw [List.map_cons, List.nodup_cons] at hnd
      exact hnd
    rw [overlayMap_cons,
      mapSet_eq_append_of_not_mem f (hdis f (List.mem_cons_self _ _))]
    rw [ih hnd'.2]
    · simp [zipIds]
    · intro g hg
      simp only [List.map_append, List.mem_append, not_or]
      refine ⟨hdis g (List.mem_cons_of_mem _ hg), ?_⟩
      simp only [List.map_cons, List.map_nil, List.mem_singleton]
      intro he
      exact hnd'.1 (he ▸ List.mem_map.mpr ⟨g, hg, rfl⟩)

theorem assoc_ext : ∀ (m m' : List (String × Job)),
    m.map (fun p => p.1) = m'.map (fun p => p.1) →
    (m.map (fun p => p.1)).Nodup →
    (∀ k, mapGet m k = mapGet m' k) → m = m' := by
  intro m
  induction m with
  | nil =>
    intro m' hkeys _ _
    cases m' with
    | nil => rfl
    | cons q rest => simp at hkeys
  | cons p rest ih =>
    intro m' hkeys hnd hget
    cases m' with
    | nil => simp at hkeys
    | cons q rest' =>
      obtain ⟨k0, v0⟩ := p
      obtain ⟨k1, v1⟩ := q
      simp only [List.map_cons, List.cons.injEq] at hkeys
      obtain ⟨hk01, hkeys'⟩ := hkeys
      subst hk01
      have hv : v0 = v1 := by
        have h0 := hget k0
        simpa [mapGet, List.find?] using h0
      subst hv
      have hnd' := List.nodup_cons.mp hnd
      have hget' : ∀ k, mapGet rest k = mapGet rest' k := by
        intro k
        by_cases hk : k = k0
        · subst hk
          have hnotm : mapGet rest k = none := by
            cases hfind : List.find? (fun kv => kv.1 = k) rest with
            | none => simp [mapGet, hfind]
            | some p' =>
              have hmem := List.mem_of_find?_eq_some hfind
              have hkk := List.find?_some hfind
              simp only [decide_eq_true_eq] at hkk
              exact absurd (hkk ▸ List.mem_map.mpr ⟨p', hmem, rfl⟩) hnd'.1
          have hnotm' : mapGet rest' k = none := by
            cases hfind : List.find? (fun kv => kv.1 = k) rest' with
            | none => simp [mapGet, hfind]
            | some p' =>
              have hmem := List.mem_of_find?_eq_some hfind
              have hkk := List.find?_some hfind
              simp only [decide_eq_true_eq] at hkk
              have hin : k ∈ rest'.map (fun r => r.1) :=
                hkk ▸ List.mem_map.mpr ⟨p', hmem, rfl⟩
              rw [← hkeys'] at hin
              exact absurd hin hnd'.1
          rw [hnotm, hnotm']
        · have h0 := hget k
          have hne : ¬ (k0 = k) := fun he => hk he.symm
          simpa [mapGet, List.find?, hne] using h0
      exact congrArg _ (ih rest' hkeys' hnd'.2 hget')

theorem insertLe_perm (le : Job → Job → Bool) (x : Job) :
    ∀ l : List Job, List.Perm (insertLe le x l) (x :: l) := by
  intro l
  induction l with
  | nil => simp [insertLe]
  | cons y ys ih =>
    simp only [insertLe]
    by_cases h : le x y
    · rw [if_pos h]
    · rw [if_neg h]
      exact List.Perm.trans (List.Perm.cons y ih) (List.Perm.swap x y ys)

theorem jsSortBy_perm (le : Job → Job → Bool) :
    ∀ l : List Job, List.Perm (jsSortBy le l) l := by
  intro l
  induction l with
  | nil => simp [jsSortBy]
  | cons x xs ih =>
    exact List.Perm.trans (insertLe_perm le x _) (List.Perm.cons x ih)

theorem jsLe_total (parse : String → Option Int) (a b : Job) :
    jsLe parse a b = true ∨ jsLe parse b a = true := by
  unfold jsLe
  cases ha : parse a.postedDate with
  | none => cases hb : parse b.postedDate <;> simp
  | some ta =>
    cases hb : parse b.postedDate with
    | none => simp
    | some tb =>
      rcases Int.le_total ta tb with h | h
      · right; simpa using h
      · left; simpa using h

theorem jsLe_trans (parse : String → Option Int) {a b c : Job}
    (hb : (parse b.postedDate).isSome)
    (hab : jsLe parse a b = true) (hbc : jsLe parse b c = true) :
    jsLe parse a c = true := by
  unfold jsLe at *
  cases ha : parse a.postedDate with
  | none => simp
  | some ta =>
    cases hc : parse c.postedDate with
    | none => simp
    | some tc =>
      cases hbs : parse b.postedDate with
      | none => rw [hbs] at hb; simp at hb
      | some tb =>
        rw [ha, hbs] at hab
        rw [hbs, hc] at hbc
        simp only [decide_eq_true_eq] at hab hbc ⊢
        exact le_trans hbc hab

theorem insertLe_pairwise (parse : String → Option Int) (x : Job) :
    ∀ l : List Job,
      (∀ b ∈ l, (parse b.postedDate).isSome) →
      l.Pairwise (fun a b => jsLe parse a b = true) →
      (insertLe (jsLe parse) x l).Pairwise (fun a b => jsLe parse a b = true) := by
  intro l
  induction l with
  | nil => intro _ _; simp [insertLe]
  | cons y ys ih =>
    intro hp hl
    have hl' := List.pairwise_cons.mp hl
    simp only [insertLe]
    by_cases h : jsLe parse x y
    · rw [if_pos h]
      refine List.pairwise_cons.mpr ⟨?_, hl⟩
      intro z hz
      rcases List.mem_cons.mp hz with hz | hz
      · exact hz ▸ h
      · exact jsLe_trans parse (hp y (List.mem_cons_self _ _)) h (hl'.1 z hz)
    · rw [if_neg h]
      have hyx : jsLe parse y x = true :=
        (jsLe_total parse x y).resolve_left (fun hh => h hh)
      refine List.pairwise_cons.mpr ⟨?_, ?_⟩
      · intro z hz
        rcases List.mem_cons.mp
          ((insertLe_perm (jsLe parse) x ys).mem_iff.mp hz) with hz | hz
        · exact hz ▸ hyx
        · exact hl'.1 z hz
      · exact ih (fun b hb => hp b (List.mem_cons_of_mem _ hb)) hl'.2
  
theorem jsSortBy_pairwise (parse : String → Option Int) :
    ∀ l : List Job,
      (∀ b ∈ l, (parse b.postedDate).isSome) →
      (jsSortBy (jsLe parse) l).Pairwise (fun a b => jsLe parse a b = true) := by
  intro l
  induction l with
  | nil => intro _; simp [jsSortBy]
  | cons x xs ih =>
    intro hp
    simp only [jsSortBy]
    refine insertLe_pairwise parse x _ ?_ (ih ?_)
    · intro b hb
      exact hp b (List.mem_cons_of_mem _
        ((jsSortBy_perm (jsLe parse) xs).mem_iff.mp hb))
    · intro b hb
      exact hp b (List.mem_cons_of_mem _ hb)

theorem jsSortBy_eq_of_pairwise (le : Job → Job → Bool) :
    ∀ l : List Job, l.Pairwise (fun a b => le a b = true) →
      jsSortBy le l = l := by
  intro l
  induction l with
  | nil => simp [jsSortBy]
  | cons x xs ih =>
    intro hl
    have hl' := List.pairwise_cons.mp hl
    simp only [jsSortBy, ih hl'.2]
    cases xs with
    | nil => simp [insertLe]
    | cons y ys =>
      simp only [insertLe, if_pos (hl'.1 y (List.mem_cons_self _ _))]

/-! ### Characterization of the merge result -/

theorem seedStep_eq (parse : String → Option Int) (cutoff : Int)
    (m : List (String × Job)) (job : Job) :
    seedStep parse cutoff m job =
      if inWindow parse cutoff job then mapSet m job.id job else m := by
  unfold seedStep inWindow
  cases parse job.postedDate with
  | none => simp
  | some t => simp

theorem seed_eq_overlay_filter (parse : String → Option Int) (cutoff : Int) :
    ∀ (prev : List Job) (m : List (String × Job)),
      prev.foldl (seedStep parse cutoff) m =
        overlayMap m (prev.filter (inWindow parse cutoff)) := by
  intro prev
  induction prev with
  | nil => intro m; rfl
  | cons p rest ih =>
    intro m
    simp only [List.foldl_cons, seedStep_eq, List.filter_cons]
    by_cases hw : inWindow parse cutoff p
    · rw [if_pos hw, if_pos hw, ih, overlayMap_cons]
    · rw [if_neg hw, if_neg hw, ih]

/-- The merge map of `mergeJobs`: retained-previous overlaid with fresh. -/
def mergeMap (parse : String → Option Int) (now : Int)
    (prev fresh : List Job) : List (String × Job) :=
  overlayMap (overlayMap [] (prev.filter (inWindow parse (mergeCutoff now)))) fresh

theorem mergeJobs_eq (parse : String → Option Int) (now : Int)
    (prev fresh : List Job) :
    mergeJobs parse now prev fresh =
      jsSortBy (jsLe parse) ((mergeMap parse now prev fresh).map (fun p => p.2)) := by
  show jsSortBy (jsLe parse)
      ((List.foldl (fun m job => mapSet m job.id job)
        (List.foldl (seedStep parse (mergeCutoff now)) [] prev) fresh).map
          (fun kv => kv.2)) = _
  rw [seed_eq_overlay_filter]
  rfl

theorem mergeMap_mapOk (parse : String → Option Int) (now : Int)
    (prev fresh : List Job) : MapOk (mergeMap parse now prev fresh) := by
  unfold mergeMap
  exact overlay_mapOk _ (overlay_mapOk _ ⟨by simp, by simp⟩)

theorem ids_eq_keys {m : List (String × Job)} (h : ∀ p ∈ m, p.1 = p.2.id) :
    (m.map (fun p => p.2)).map (fun j => j.id) = m.map (fun p => p.1) := by
  induction m with
  | nil => rfl
  | cons p rest ih =>
    simp only [List.map_cons, List.cons.injEq]
    constructor
    · exact (h p (List.mem_cons_self _ _)).symm
    · exact ih (fun q hq => h q (List.mem_cons_of_mem _ hq))

theorem mergeJobs_perm_values (parse : String → Option Int) (now : Int)
    (prev fresh : List Job) :
    List.Perm (mergeJobs parse now prev fresh)
      ((mergeMap parse now prev fresh).map (fun p => p.2)) := by
  rw [mergeJobs_eq]
  exact jsSortBy_perm _ _

/-- Core of claim C3: result ids are pairwise distinct. -/
theorem mergeJobs_ids_nodup (parse : String → Option Int) (now : Int)
    (prev fresh : List Job) :
    ((mergeJobs parse now prev fresh).map (fun j => j.id)).Nodup := by
  have hok := mergeMap_mapOk parse now prev fresh
  have hperm := (mergeJobs_perm_values parse now prev fresh).map (fun j => j.id)
  rw [List.Perm.nodup_iff hperm, ids_eq_keys hok.1]
  exact hok.2

/-- Core of claim C10: every result record is an input record. -/
theorem mergeJobs_mem_conserve (parse : String → Option Int) (now : Int)
    (prev fresh : List Job) {r : Job}
    (hr : r ∈ mergeJobs parse now prev fresh) : r ∈ prev ∨ r ∈ fresh := by
  have hv := (mergeJobs_perm_values parse now prev fresh).mem_iff.mp hr
  unfold mergeMap at hv
  rcases overlay_values_subset hv with hv | hv
  · rcases overlay_values_subset hv with hv | hv
    · simp at hv
    · exact Or.inl (List.mem_of_mem_filter hv)
  · exact Or.inr hv

/-- Result membership as a `mapGet` fact. -/
theorem mergeJobs_mem_iff_get (parse : String → Option Int) (now : Int)
    (prev fresh : List Job) (r : Job) :
    r ∈ mergeJobs parse now prev fresh ↔
      mapGet (mergeMap parse now prev fresh) r.id = some r := by
  have hok := mergeMap_mapOk parse now prev fresh
  rw [(mergeJobs_perm_values parse now prev fresh).mem_iff]
  constructor
  · intro h
    rcases List.mem_map.mp h with ⟨p, hp, hv⟩
    have hk := hok.1 p hp
    have := mapGet_eq_some_of_mem hok hp
    rw [hk, hv] at this
    exact this
  · intro h
    exact List.mem_map.mpr ⟨(r.id, r), mem_of_mapGet_eq_some h, rfl⟩

theorem mergeMap_get (parse : String → Option Int) (now : Int)
    (prev fresh : List Job) (k : String) :
    mapGet (mergeMap parse now prev fresh) k =
      (lastWith fresh k).or
        (lastWith (prev.filter (inWindow parse (mergeCutoff now))) k) := by
  unfold mergeMap
  rw [overlay_get, overlay_get]
  cases lastWith fresh k with
  | none =>
    simp only [Option.none_or]
    cases lastWith (prev.filter (inWindow parse (mergeCutoff now))) k with
    | none => simp [mapGet]
    | some j => simp
  | some j => simp

theorem lastWith_eq_none_of_not_mem {jobs : List Job} {k : String}
    (h : k ∉ jobs.map (fun j => j.id)) : lastWith jobs k = none := by
  unfold lastWith
  rw [List.find?_eq_none]
  intro j hj
  simp only [decide_eq_true_eq]
  intro he
  exact h (he ▸ List.mem_map.mpr ⟨j, List.mem_reverse.mp hj, rfl⟩)

theorem lastWith_of_mem_nodup {jobs : List Job} {f : Job}
    (hnd : (jobs.map (fun j => j.id)).Nodup) (hf : f ∈ jobs) :
    lastWith jobs f.id = some f := by
  unfold lastWith
  have hex : ∃ x ∈ jobs.reverse, (fun j => decide (j.id = f.id)) x = true :=
    ⟨f, List.mem_reverse.mpr hf, by simp⟩
  have hsome := List.find?_isSome.mpr hex
  cases hg : List.find? (fun j => decide (j.id = f.id)) jobs.reverse with
  | none => rw [hg] at hsome; simp at hsome
  | some g =>
    have hmem : g ∈ jobs := List.mem_reverse.mp (List.mem_of_find?_eq_some hg)
    have hid : g.id = f.id := by
      have := List.find?_some hg
      simpa using this
    have : g = f := List.inj_on_of_nodup_map hnd hmem hf hid
    rw [this]

theorem lastWith_mem {jobs : List Job} {k : String} {j : Job}
    (h : lastWith jobs k = some j) : j ∈ jobs ∧ j.id = k := by
  unfold lastWith at h
  refine ⟨List.mem_reverse.mp (List.mem_of_find?_eq_some h), ?_⟩
  have := List.find?_some h
  simpa using this

theorem inWindow_iff (parse : String → Option Int) (cutoff : Int) (j : Job) :
    inWindow parse cutoff j = true ↔
      ∃ t, parse j.postedDate = some t ∧ cutoff ≤ t := by
  unfold inWindow
  cases h : parse j.postedDate with
  | none => simp
  | some t => simp

theorem parses_of_inWindow {parse : String → Option Int} {cutoff : Int}
    {j : Job} (h : inWindow parse cutoff j = true) :
    (parse j.postedDate).isSome := by
  unfold inWindow at h
  cases hp : parse j.postedDate with
  | none => rw [hp] at h; simp at h
  | some t => simp

theorem filter_ids_nodup {prev : List Job} {p : Job → Bool}
    (h : (prev.map (fun j => j.id)).Nodup) :
    ((prev.filter p).map (fun j => j.id)).Nodup :=
  List.Nodup.sublist (List.Sublist.map _ (List.filter_sublist prev)) h

/-- Core of claims C2 (fresh side) and C4: with per-source unique ids,
every fresh record appears in the merge result. -/
theorem mergeJobs_fresh_mem (parse : String → Option Int) (now : Int)
    (prev fresh : List Job) {f : Job}
    (hnd : (fresh.map (fun j => j.id)).Nodup) (hf : f ∈ fresh) :
    f ∈ mergeJobs parse now prev fresh := by
  rw [mergeJobs_mem_iff_get, mergeMap_get, lastWith_of_mem_nodup hnd hf]
  rfl

/-- Ids determine records inside one merge result. -/
theorem mergeJobs_id_inj (parse : String → Option Int) (now : Int)
    (prev fresh : List Job) {a b : Job}
    (ha : a ∈ mergeJobs parse now prev fresh)
    (hb : b ∈ mergeJobs parse now prev fresh) (hid : a.id = b.id) : a = b :=
  List.inj_on_of_nodup_map (mergeJobs_ids_nodup parse now prev fresh) ha hb hid

/-- Core of claim C2 (previous side): with unique ids, a previous
record whose id is absent from fresh survives iff it is in-window. -/
theorem mergeJobs_prev_mem_iff (parse : String → Option Int) (now : Int)
    (prev fresh : List Job) {p : Job}
    (hndp : (prev.map (fun j => j.id)).Nodup) (hp : p ∈ prev)
    (hnotin : p.id ∉ fresh.map (fun j => j.id)) :
    p ∈ mergeJobs parse now prev fresh ↔
      inWindow parse (mergeCutoff now) p = true := by
  rw [mergeJobs_mem_iff_get, mergeMap_get,
    lastWith_eq_none_of_not_mem hnotin, Option.none_or]
  constructor
  · intro h
    have hmem := (lastWith_mem h).1
    exact List.mem_filter.mp hmem |>.2
  · intro h
    exact lastWith_of_mem_nodup (filter_ids_nodup hndp)
      (List.mem_filter.mpr ⟨hp, h⟩)

/-- Strengthened conservation: every result record is a retained
(in-window) previous record or a fresh record. -/
theorem mergeJobs_mem_cases (parse : String → Option Int) (now : Int)
    (prev fresh : List Job) {r : Job}
    (hr : r ∈ mergeJobs parse now prev fresh) :
    r ∈ prev.filter (inWindow parse (mergeCutoff now)) ∨ r ∈ fresh := by
  have hv := (mergeJobs_perm_values parse now prev fresh).mem_iff.mp hr
  unfold mergeMap at hv
  rcases overlay_values_subset hv with hv | hv
  · rcases overlay_values_subset hv with hv | hv
    · simp at hv
    · exact Or.inl hv
  · exact Or.inr hv

/-- Core of (amended) claim C1: when every fresh record's posted date
parses into the retention window, the merge is idempotent. -/
theorem mergeJobs_idem (parse : String → Option Int) (now : Int)
    (prev fresh : List Job)
    (HF : ∀ f ∈ fresh, inWindow parse (mergeCutoff now) f = true) :
    mergeJobs parse now (mergeJobs parse now prev fresh) fresh =
      mergeJobs parse now prev fresh := by
  set R := mergeJobs parse now prev fresh with hR
  have hwin : ∀ r ∈ R, inWindow parse (mergeCutoff now) r = true := by
    intro r hr
    rcases mergeJobs_mem_cases parse now prev fresh hr with h | h
    · exact (List.mem_filter.mp h).2
    · exact HF r h
  have hndR : (R.map (fun j => j.id)).Nodup :=
    mergeJobs_ids_nodup parse now prev fresh
  have hfilter : R.filter (inWindow parse (mergeCutoff now)) = R :=
    List.filter_eq_self.mpr (fun r hr => hwin r hr)
  have hseed :
      overlayMap [] (R.filter (inWindow parse (mergeCutoff now))) = zipIds R := by
    rw [hfilter]
    have h := overlay_eq_append_zip (m := []) hndR (by simp)
    simpa using h
  have hkeys_zip : (zipIds R).map (fun p => p.1) = R.map (fun j => j.id) := by
    simp [zipIds]
  have hokzip : MapOk (zipIds R) := by
    constructor
    · intro p hp
      rcases List.mem_map.mp hp with ⟨j, hj, he⟩
      simp [← he]
    · rw [hkeys_zip]
      exact hndR
  have hmm : mergeMap parse now R fresh = overlayMap (zipIds R) fresh := by
    unfold mergeMap
    rw [hseed]
  have hfid : ∀ f ∈ fresh, f.id ∈ (zipIds R).map (fun p => p.1) := by
    intro f hf
    rw [hkeys_zip]
    have hex : ∃ x ∈ fresh.reverse, (fun j => decide (j.id = f.id)) x = true :=
      ⟨f, List.mem_reverse.mpr hf, by simp⟩
    have hsome : (lastWith fresh f.id).isSome := by
      unfold lastWith
      exact List.find?_isSome.mpr hex
    cases hg : lastWith fresh f.id with
    | none => rw [hg] at hsome; simp at hsome
    | some g =>
      have hget : mapGet (mergeMap parse now prev fresh) f.id = some g := by
        rw [mergeMap_get, hg]
        rfl
      have hmem := mem_of_mapGet_eq_some hget
      have hok := mergeMap_mapOk parse now prev fresh
      have hid : f.id = g.id := hok.1 _ hmem
      have hgR : g ∈ R :=
        (mergeJobs_perm_values parse now prev fresh).mem_iff.mpr
          (List.mem_map.mpr ⟨(f.id, g), hmem, rfl⟩)
      rw [hid]
      exact List.mem_map.mpr ⟨g, hgR, rfl⟩
  have hover : overlayMap (zipIds R) fresh = zipIds R := by
    apply assoc_ext
    · exact overlay_keys_of_mem hfid
    · rw [overlay_keys_of_mem hfid, hkeys_zip]
      exact hndR
    · intro k
      rw [overlay_get]
      cases hlw : lastWith fresh k with
      | none => simp
      | some j =>
        have hget : mapGet (mergeMap parse now prev fresh) k = some j := by
          rw [mergeMap_get, hlw]
          rfl
        have hmem := mem_of_mapGet_eq_some hget
        have hok := mergeMap_mapOk parse now prev fresh
        have hid : k = j.id := hok.1 _ hmem
        have hjR : j ∈ R :=
          (mergeJobs_perm_values parse now prev fresh).mem_iff.mpr
            (List.mem_map.mpr ⟨(k, j), hmem, rfl⟩)
        have hz : ((j.id, j) : String × Job) ∈ zipIds R :=
          List.mem_map.mpr ⟨j, hjR, rfl⟩
        have hgz := mapGet_eq_some_of_mem hokzip hz
        rw [hid, hgz]
        rfl
  have hvals : (zipIds R).map (fun p => p.2) = R := by
    simp only [zipIds, List.map_map]
    have : ((fun p : String × Job => p.2) ∘ fun j : Job => (j.id, j)) =
        fun j => j := rfl
    rw [this]
    exact List.map_id R
  have hparseV : ∀ b ∈ (mergeMap parse now prev fresh).map (fun p => p.2),
      (parse b.postedDate).isSome := by
    intro b hb
    have hmb : b ∈ R :=
      (mergeJobs_perm_values parse now prev fresh).mem_iff.mpr hb
    exact parses_of_inWindow (hwin b hmb)
  have hpair : R.Pairwise (fun a b => jsLe parse a b = true) := by
    rw [hR, mergeJobs_eq]
    exact jsSortBy_pairwise parse _ hparseV
  rw [mergeJobs_eq parse now R fresh, hmm, hover, hvals]
  exact jsSortBy_eq_of_pairwise _ R hpair

/-! ### Characterization of the salary filter -/

/-- One record's fate in the pass/reject loop of `filterBySalary`. -/
def salaryDecision (cache : List (String × CacheEntry)) (job : Job) :
    Option Job :=
  match getSalaryDataSync job.department cache with
  | none => some job
  | some (maxLPA, src) =>
    if MIN_SALARY_LPA ≤ maxLPA then some (annotateSalary job maxLPA src)
    else none

theorem salaryStep_eq (cache : List (String × CacheEntry))
    (passed : List Job) (job : Job) :
    salaryStep cache passed job =
      passed ++ (salaryDecision cache job).toList := by
  unfold salaryStep salaryDecision
  cases getSalaryDataSync job.department cache with
  | none => simp
  | some p =>
    obtain ⟨v, s⟩ := p
    by_cases h : MIN_SALARY_LPA ≤ v
    · simp [h]
    · simp [h]

theorem filterBySalary_eq (cache : List (String × CacheEntry)) :
    ∀ (jobs : List Job) (acc : List Job),
      jobs.foldl (salaryStep cache) acc =
        acc ++ jobs.filterMap (salaryDecision cache) := by
  intro jobs
  induction jobs with
  | nil => intro acc; simp
  | cons j rest ih =>
    intro acc
    rw [List.foldl_cons, salaryStep_eq, ih, List.filterMap_cons]
    cases salaryDecision cache j with
    | none => simp
    | some w => simp

theorem filterBySalary_mem_iff (cache : List (String × CacheEntry))
    (jobs : List Job) (r : Job) :
    r ∈ filterBySalary cache jobs ↔
      ∃ j ∈ jobs, salaryDecision cache j = some r := by
  unfold filterBySalary
  rw [filterBySalary_eq]
  simp [List.mem_filterMap]

theorem annotateSalary_department (job : Job) (v : Int) (s : String) :
    (annotateSalary job v s).department = job.department := rfl

theorem salary_below_not_mem (cache : List (String × CacheEntry))
    (jobs : List Job) {j : Job} {v : Int} {s : String}
    (hdata : getSalaryDataSync j.department cache = some (v, s))
    (hlow : v < MIN_SALARY_LPA) : j ∉ filterBySalary cache jobs := by
  intro hmem
  rcases (filterBySalary_mem_iff cache jobs j).mp hmem with ⟨j0, _, hdec⟩
  unfold salaryDecision at hdec
  cases hd : getSalaryDataSync j0.department cache with
  | none =>
    rw [hd] at hdec
    cases hdec
    rw [hd] at hdata
    cases hdata
  | some p =>
    obtain ⟨v0, s0⟩ := p
    rw [hd] at hdec
    dsimp only at hdec
    by_cases hge : MIN_SALARY_LPA ≤ v0
    · rw [if_pos hge] at hdec
      have hj : j = annotateSalary j0 v0 s0 := (Option.some.injEq _ _).mp hdec.symm
      have hdep : j.department = j0.department := by
        rw [hj, annotateSalary_department]
      rw [hdep, hd] at hdata
      cases hdata
      exact absurd hge (not_le.mpr hlow)
    · rw [if_neg hge] at hdec
      cases hdec

/-! ### Concrete fixtures for witnesses and counterexamples -/

/-- Fresh record with an unparseable posted date. -/
def jA : Job :=
  { id := "a", title := "Senior Software Engineer", url := "https://x/a",
    location := "India", department := "Acme", type := "Full time",
    postedDate := "not-a-date" }

/-- Fresh record whose posted date parses (to 1000 ms). -/
def jB : Job :=
  { id := "b", title := "Senior Software Engineer", url := "https://x/b",
    location := "India", department := "Acme", type := "Full time",
    postedDate := "1000" }

/-- Previous record dated exactly 8 days before `wNow`. -/
def wP8 : Job :=
  { id := "p8", title := "Senior Software Engineer", url := "https://x/p8",
    location := "India", department := "Acme", type := "Full time",
    postedDate := "8800000" }

/-- Previous record dated 6 days before `wNow`. -/
def wP6 : Job :=
  { id := "p6", title := "Senior Software Engineer", url := "https://x/p6",
    location := "India", department := "Acme", type := "Full time",
    postedDate := "181600000" }

/-- Previous record with an unparseable posted date. -/
def wPU : Job :=
  { id := "pu", title := "Senior Software Engineer", url := "https://x/pu",
    location := "India", department := "Acme", type := "Full time",
    postedDate := "unknown" }

/-- Fresh record dated more than 9 days before `wNow` (stale but fresh). -/
def wF9 : Job :=
  { id := "f9", title := "Senior Software Engineer", url := "https://x/f9",
    location := "India", department := "Acme", type := "Full time",
    postedDate := "1" }

/-- The fixed current time used by rolling-window witnesses. -/
def wNow : Int := 700000000

/-- Previous version of a record that is refreshed. -/
def wPrevX : Job :=
  { id := "x", title := "Senior Software Engineer", url := "https://x/x",
    location := "India", department := "Acme", type := "Full time",
    postedDate := "5" }

/-- Fresh version of the same id with different field values. -/
def wFreshX : Job :=
  { id := "x", title := "Senior Software Engineer", url := "https://x/x2",
    location := "Pune, India", department := "Acme", type := "Full time",
    postedDate := "10" }

/-! ### Claim theorems -/

/-- C1 (counterexample): `mergeJobs` is not idempotent as claimed.
With previous = `[]` and fresh = `[jA, jB]` (where `jA`'s date does not
parse while `jB`'s does, in-window), one merge returns `[jA, jB]` but
merging the same fresh batch into that result returns `[jB, jA]`: the
seeding pass drops `jA` (NaN date), the overlay re-appends it after
`jB`, and the sort leaves the pair in place because a comparison
against a `NaN` date is a tie. -/
theorem mergeJobs_not_idempotent :
    mergeJobs parseMillis 1000 (mergeJobs parseMillis 1000 [] [jA, jB])
        [jA, jB] ≠
      mergeJobs parseMillis 1000 [] [jA, jB] := by decide

/-- C1 (amended): merging the same fresh batch twice yields the same
list as merging it once, provided every fresh record's posted date
parses to a time at or after `now - ROLLING_WINDOW_DAYS` days (the
counterexample shows the restriction on fresh dates is necessary). -/
theorem mergeJobs_idempotent_amended (parse : String → Option Int)
    (now : Int) (previous fresh : List Job)
    (HF : ∀ f ∈ fresh, ∃ t, parse f.postedDate = some t ∧
      now - ROLLING_WINDOW_DAYS * 86400000 ≤ t) :
    mergeJobs parse now (mergeJobs parse now previous fresh) fresh =
      mergeJobs parse now previous fresh :=
  mergeJobs_idem parse now previous fresh
    (fun f hf => (inWindow_iff parse (mergeCutoff now) f).mpr (HF f hf))

/-- C1 witness: the amended idempotence at a concrete input (previous
holds an unparseable-date record, fresh holds one in-window record). -/
theorem mergeJobs_idempotent_amended_witness :
    mergeJobs parseMillis 1000 (mergeJobs parseMillis 1000 [wPU] [jB]) [jB] =
      mergeJobs parseMillis 1000 [wPU] [jB] := by
  apply mergeJobs_idempotent_amended parseMillis 1000 [wPU] [jB]
  intro f hf
  rw [List.mem_singleton] at hf
  subst hf
  exact ⟨1000, by decide, by decide⟩

/-- C3: for all inputs (repeated ids allowed), each id occurs at most
once in the `mergeJobs` result, because the result enumerates the
values of a map keyed by id and sorting only permutes them. -/
theorem mergeJobs_no_duplicate_ids (parse : String → Option Int) (now : Int)
    (previous fresh : List Job) :
    ((mergeJobs parse now previous fresh).map (fun j => j.id)).Nodup :=
  mergeJobs_ids_nodup parse now previous fresh

/-- C10: every record in the `mergeJobs` result is identically an
element of the previous list or of the fresh list; the merge neither
alters fields nor fabricates records. -/
theorem mergeJobs_conservation (parse : String → Option Int) (now : Int)
    (previous fresh : List Job) {r : Job}
    (hr : r ∈ mergeJobs parse now previous fresh) :
    r ∈ previous ∨ r ∈ fresh :=
  mergeJobs_mem_conserve parse now previous fresh hr

/-- C10 witness: conservation evaluated at a concrete merge. -/
theorem mergeJobs_conservation_witness : jB ∈ ([wP6] : List Job) ∨ jB ∈ [jB] :=
  mergeJobs_conservation parseMillis 1000 [wP6] [jB] (by decide)

/-- C2: with per-source unique ids (the documented invariant), a
previous record whose id is absent from fresh appears in the result
exactly when its posted date parses to a time at or after
`now - ROLLING_WINDOW_DAYS` days (so an unparseable date means it is
dropped), while every fresh record appears regardless of its date. -/
theorem mergeJobs_rolling_window (parse : String → Option Int) (now : Int)
    (previous fresh : List Job)
    (hndp : (previous.map (fun j => j.id)).Nodup)
    (hndf : (fresh.map (fun j => j.id)).Nodup) :
    (∀ p ∈ previous, p.id ∉ fresh.map (fun j => j.id) →
      (p ∈ mergeJobs parse now previous fresh ↔
        ∃ t, parse p.postedDate = some t ∧
          now - ROLLING_WINDOW_DAYS * 86400000 ≤ t)) ∧
    (∀ f ∈ fresh, f ∈ mergeJobs parse now previous fresh) := by
  constructor
  · intro p hp hnot
    rw [mergeJobs_prev_mem_iff parse now previous fresh hndp hp hnot,
      inWindow_iff]
    exact Iff.rfl
  · intro f hf
    exact mergeJobs_fresh_mem parse now previous fresh hndf hf

/-- C2 witness: with `windowDays = 7` and now = `wNow`, the previous
record dated exactly 8 days ago (`wP8`) and the unparseable-date
record (`wPU`) are dropped, the one dated 6 days ago (`wP6`) is
retained, and the fresh record dated more than 9 days ago (`wF9`)
still appears. -/
theorem mergeJobs_rolling_window_witness :
    wP6 ∈ mergeJobs parseMillis wNow [wP8, wP6, wPU] [wF9] ∧
    wP8 ∉ mergeJobs parseMillis wNow [wP8, wP6, wPU] [wF9] ∧
    wPU ∉ mergeJobs parseMillis wNow [wP8, wP6, wPU] [wF9] ∧
    wF9 ∈ mergeJobs parseMillis wNow [wP8, wP6, wPU] [wF9] := by
  have h := mergeJobs_rolling_window parseMillis wNow [wP8, wP6, wPU] [wF9]
    (by decide) (by decide)
  refine ⟨(h.1 wP6 (by decide) (by decide)).mpr
    ⟨181600000, by decide, by decide⟩, ?_, ?_, h.2 wF9 (by decide)⟩
  · intro hmem
    obtain ⟨t, ht, hle⟩ := (h.1 wP8 (by decide) (by decide)).mp hmem
    have he : parseMillis wP8.postedDate = some 8800000 := by decide
    rw [he] at ht
    cases ht
    exact absurd hle (by decide)
  · intro hmem
    obtain ⟨t, ht, _⟩ := (h.1 wPU (by decide) (by decide)).mp hmem
    have he : parseMillis wPU.postedDate = none := by decide
    rw [he] at ht
    cases ht

/-- C4: when an id occurs both in previous and in fresh with different
field values (and ids are per-source unique), the merged record for
that id is exactly the fresh version: it is in the result, and it is
the only result record with that id. -/
theorem mergeJobs_fresh_wins (parse : String → Option Int) (now : Int)
    (previous fresh : List Job)
    (hndf : (fresh.map (fun j => j.id)).Nodup) {p f : Job}
    (hp : p ∈ previous) (hf : f ∈ fresh) (hid : p.id = f.id) (hne : p ≠ f) :
    f ∈ mergeJobs parse now previous fresh ∧
    ∀ g ∈ mergeJobs parse now previous fresh, g.id = f.id → g = f := by
  refine ⟨mergeJobs_fresh_mem parse now previous fresh hndf hf, ?_⟩
  intro g hg hgid
  exact mergeJobs_id_inj parse now previous fresh hg
    (mergeJobs_fresh_mem parse now previous fresh hndf hf) hgid

/-- C4 witness: id `"x"` exists in previous (`wPrevX`) and fresh
(`wFreshX`) with different fields; the result carries the fresh
version only. -/
theorem mergeJobs_fresh_wins_witness :
    wFreshX ∈ mergeJobs parseMillis 1000 [wPrevX] [wFreshX] ∧
    ∀ g ∈ mergeJobs parseMillis 1000 [wPrevX] [wFreshX],
      g.id = wFreshX.id → g = wFreshX :=
  @mergeJobs_fresh_wins parseMillis 1000 [wPrevX] [wFreshX] (by decide)
    wPrevX wFreshX (by decide) (by decide) (by decide) (by decide)

/-- The output ordering claimed by the specification: posted date
descending, unparseable dates after all parseable ones, and ties (and
unparseable pairs) broken by id. -/
def specOrdered (parse : String → Option Int) (a b : Job) : Prop :=
  match parse a.postedDate, parse b.postedDate with
  | some ta, some tb => tb < ta ∨ (tb = ta ∧ a.id ≤ b.id)
  | some _, none => True
  | none, some _ => False
  | none, none => a.id ≤ b.id

/-- Claim C5 as stated: every `mergeJobs` result is ordered by
`specOrdered`. -/
def C5ClaimHolds : Prop :=
  ∀ (parse : String → Option Int) (now : Int) (previous fresh : List Job),
    (mergeJobs parse now previous fresh).Pairwise (specOrdered parse)

/-- C5 (counterexample): the claimed ordering fails.  With previous =
`[]` and fresh = `[jA, jB]`, the result is `[jA, jB]`, which places the
record with the unparseable date (`jA`) before the record with the
parseable date (`jB`): the JS comparator returns `NaN` on such pairs,
which `Array.prototype.sort` treats as a tie, so unparseable dates
keep their insertion position instead of sorting last (and ties are
never broken by id). -/
theorem mergeJobs_not_spec_ordered : ¬ C5ClaimHolds := by
  intro h
  have h2 := h parseMillis 1000 [] [jA, jB]
  have he : mergeJobs parseMillis 1000 [] [jA, jB] = [jA, jB] := by decide
  rw [he] at h2
  have h3 := (List.pairwise_cons.mp h2).1 jB (by simp)
  have ha : parseMillis jA.postedDate = none := by decide
  have hb : parseMillis jB.postedDate = some 1000 := by decide
  unfold specOrdered at h3
  rw [ha, hb] at h3
  exact h3

/-- C5 (amended): whenever every fresh record's posted date parses
(retained previous records always parse), the result is sorted by
posted date descending; records with unparseable dates are treated as
tying with every record (they are not moved after parseable ones), and
equal dates keep map-insertion order rather than being re-ordered by
id. -/
theorem mergeJobs_sorted_descending_amended (parse : String → Option Int)
    (now : Int) (previous fresh : List Job)
    (HF : ∀ f ∈ fresh, (parse f.postedDate).isSome) :
    (mergeJobs parse now previous fresh).Pairwise
      (fun a b => ∀ ta tb, parse a.postedDate = some ta →
        parse b.postedDate = some tb → tb ≤ ta) := by
  have hparseV : ∀ b ∈ (mergeMap parse now previous fresh).map (fun p => p.2),
      (parse b.postedDate).isSome := by
    intro b hb
    have hmb : b ∈ mergeJobs parse now previous fresh :=
      (mergeJobs_perm_values parse now previous fresh).mem_iff.mpr hb
    rcases mergeJobs_mem_cases parse now previous fresh hmb with h | h
    · exact parses_of_inWindow (List.mem_filter.mp h).2
    · exact HF b h
  have hp : (mergeJobs parse now previous fresh).Pairwise
      (fun a b => jsLe parse a b = true) := by
    rw [mergeJobs_eq]
    exact jsSortBy_pairwise parse _ hparseV
  refine hp.imp ?_
  intro a b hab
  intro ta tb hta htb
  unfold jsLe at hab
  rw [hta, htb] at hab
  simpa using hab

/-- C5 witness: the amended descending order on a concrete merge of
three parseable-date records. -/
theorem mergeJobs_sorted_descending_amended_witness :
    (mergeJobs parseMillis wNow [wP8, wP6] [wF9, jB]).Pairwise
      (fun a b => ∀ ta tb, parseMillis a.postedDate = some ta →
        parseMillis b.postedDate = some tb → tb ≤ ta) := by
  apply mergeJobs_sorted_descending_amended parseMillis wNow [wP8, wP6]
    [wF9, jB]
  intro f hf
  rcases List.mem_cons.mp hf with hf | hf
  · subst hf; decide
  · rw [List.mem_singleton] at hf; subst hf; decide

/-- C6: role-filter precision.  "Senior Software Engineer" passes the
booking and linkedin classes; "Staff Software Engineer" fails both;
"Senior Member of Technical Staff" passes the salesforce (SMTS) class
but fails the generic-SWE classes; and for the linkedin class any
title hit by the exclusion pattern (staff, principal, lead, manager,
director) is rejected no matter what else it matches, because the
exclusion test runs before the inclusion test. -/
theorem matchesRoleFilter_precision :
    matchesRoleFilter "Senior Software Engineer" "booking" = true ∧
    matchesRoleFilter "Senior Software Engineer" "linkedin" = true ∧
    matchesRoleFilter "Staff Software Engineer" "booking" = false ∧
    matchesRoleFilter "Staff Software Engineer" "linkedin" = false ∧
    matchesRoleFilter "Senior Member of Technical Staff" "salesforce" = true ∧
    matchesRoleFilter "Senior Member of Technical Staff" "booking" = false ∧
    matchesRoleFilter "Senior Member of Technical Staff" "linkedin" = false ∧
    ∀ title, linkedInExcluded title = true →
      matchesRoleFilter title "linkedin" = false := by
  refine ⟨by decide, by decide, by decide, by decide, by decide, by decide,
    by decide, ?_⟩
  intro title h
  unfold matchesRoleFilter
  simp [h]

/-- C6 witness: "Senior Software Engineer Manager" matches the
linkedin inclusion pattern yet is rejected because the exclusion
keyword "manager" matches. -/
theorem matchesRoleFilter_precision_witness :
    linkedInExcluded "Senior Software Engineer Manager" = true ∧
    seniorSweSearch none
      (lowerStr "Senior Software Engineer Manager").toList = true ∧
    matchesRoleFilter "Senior Software Engineer Manager" "linkedin" = false :=
  ⟨by decide, by decide,
    matchesRoleFilter_precision.2.2.2.2.2.2.2
      "Senior Software Engineer Manager" (by decide)⟩

/-- C7: the salary filter is fail-open on missing data and thresholded
otherwise.  For a job in the input batch: no resolvable compensation
data (neither curated levels.fyi nor a usable cache entry) keeps the
job, passed through unchanged (in particular its empty `salaryRange`
stays unset); a resolved maximum strictly below `MIN_SALARY_LPA` (50)
drops it; a resolved maximum at or above the threshold keeps it
annotated with the value and its provenance. -/
theorem filterBySalary_fail_open (cache : List (String × CacheEntry))
    (jobs : List Job) {j : Job} (hj : j ∈ jobs) :
    (getSalaryDataSync j.department cache = none →
      j ∈ filterBySalary cache jobs) ∧
    (∀ v s, getSalaryDataSync j.department cache = some (v, s) →
      (v < MIN_SALARY_LPA → j ∉ filterBySalary cache jobs) ∧
      (MIN_SALARY_LPA ≤ v →
        annotateSalary j v s ∈ filterBySalary cache jobs)) := by
  constructor
  · intro hnone
    refine (filterBySalary_mem_iff cache jobs j).mpr ⟨j, hj, ?_⟩
    unfold salaryDecision
    rw [hnone]
  · intro v s hdata
    constructor
    · intro hlow
      exact salary_below_not_mem cache jobs hdata hlow
    · intro hge
      refine (filterBySalary_mem_iff cache jobs _).mpr ⟨j, hj, ?_⟩
      unfold salaryDecision
      rw [hdata]
      dsimp only
      rw [if_pos hge]

/-- Company with no compensation data anywhere. -/
def jSalZ : Job :=
  { id := "z1", title := "Senior Software Engineer", url := "https://x/z1",
    location := "India", department := "zzz", type := "Easy Apply",
    postedDate := "1000" }

/-- Company resolved (curated) below the 50 LPA threshold. -/
def jSalV : Job :=
  { id := "v1", title := "Senior Software Engineer", url := "https://x/v1",
    location := "India", department := "Visa", type := "Easy Apply",
    postedDate := "1000" }

/-- Company resolved (curated) above the threshold. -/
def jSalU : Job :=
  { id := "u1", title := "Senior Software Engineer", url := "https://x/u1",
    location := "India", department := "Uber", type := "Easy Apply",
    postedDate := "1000" }

/-- C7 witness: with an empty cache, the no-data company ("zzz") is
kept unchanged, the 40-LPA company ("Visa") is dropped, and the
155-LPA company ("Uber") is kept annotated with value and
provenance. -/
theorem filterBySalary_fail_open_witness :
    jSalZ ∈ filterBySalary [] [jSalU, jSalV, jSalZ] ∧
    jSalV ∉ filterBySalary [] [jSalU, jSalV, jSalZ] ∧
    annotateSalary jSalU 155 "levels.fyi" ∈
      filterBySalary [] [jSalU, jSalV, jSalZ] :=
  ⟨(filterBySalary_fail_open [] [jSalU, jSalV, jSalZ] (by decide)).1
      (by decide),
   ((filterBySalary_fail_open [] [jSalU, jSalV, jSalZ] (by decide)).2
      40 "levels.fyi" (by decide)).1 (by decide),
   ((filterBySalary_fail_open [] [jSalU, jSalV, jSalZ] (by decide)).2
      155 "levels.fyi" (by decide)).2 (by decide)⟩

/-- C8: a record of the broad Easy Apply source survives the
cross-source dedup exactly when its normalized (lower-cased, trimmed)
title differs from every normalized title collected from the three
primary per-company sources — ids play no role in this removal. -/
theorem dedupeEasyApply_spec (salesforce booking linkedin easyAll : List Job)
    (j : Job) :
    j ∈ dedupeEasyApply salesforce booking linkedin easyAll ↔
      j ∈ easyAll ∧
      normalizeTitle j.title ∉ careersTitles salesforce booking linkedin := by
  unfold dedupeEasyApply
  rw [List.mem_filter]
  simp

/-- Primary-source record whose title covers the Easy Apply copy. -/
def jPrim : Job :=
  { id := "prim", title := "Senior Software Engineer ", url := "https://x/p",
    location := "India", department := "Acme", type := "Full time",
    postedDate := "1000" }

/-- Easy Apply record with the same normalized title, different id. -/
def jEasyDup : Job :=
  { id := "easy1", title := "senior software engineer",
    url := "https://x/e1", location := "India", department := "Other",
    type := "Easy Apply", postedDate := "1000" }

/-- Easy Apply record with a different normalized title. -/
def jEasyNew : Job :=
  { id := "easy2", title := "Senior Platform Engineer",
    url := "https://x/e2", location := "India", department := "Other",
    type := "Easy Apply", postedDate := "1000" }

/-- C8 witness: the identical-normalized-title record (different id)
is removed; the new-title record is kept. -/
theorem dedupeEasyApply_spec_witness :
    jEasyDup ∉ dedupeEasyApply [jPrim] [] [] [jEasyDup, jEasyNew] ∧
    jEasyNew ∈ dedupeEasyApply [jPrim] [] [] [jEasyDup, jEasyNew] :=
  ⟨fun hmem =>
    ((dedupeEasyApply_spec [jPrim] [] [] [jEasyDup, jEasyNew] jEasyDup).mp
      hmem).2 (by decide),
   (dedupeEasyApply_spec [jPrim] [] [] [jEasyDup, jEasyNew] jEasyNew).mpr
    ⟨by decide, by decide⟩⟩

/-- C9: adapter failure isolation.  If the Salesforce adapter's
retrieval fails (network error, non-2xx status, timeout — any rejected
`httpGet`), the adapter returns `[]` instead of throwing; the run
completes (`Except.ok`, i.e. exit code 0) with an artifact whose
salesforce key holds exactly the window-retained previous records,
while the booking key still contains every record the booking adapter
returned (the other adapters' merges take their own inputs and are
unaffected). -/
theorem adapter_failure_isolation (parse : String → Option Int) (now : Int)
    (fetchedAt : String) (prev : PrevData) (err : String)
    (booking linkedin easyAll : List Job)
    (cache : List (String × CacheEntry))
    (hnd : (booking.map (fun j => j.id)).Nodup) :
    fetchSalesforce parse (.error err) = [] ∧
    ∃ out : Output,
      runMain parse now fetchedAt prev (.error err) booking linkedin easyAll
          cache = Except.ok out ∧
      out.companies.salesforce.jobs = mergeJobs parse now prev.salesforce [] ∧
      (∀ r ∈ out.companies.salesforce.jobs,
        r ∈ prev.salesforce ∧ ∃ t, parse r.postedDate = some t ∧
          now - ROLLING_WINDOW_DAYS * 86400000 ≤ t) ∧
      (∀ b ∈ booking, b ∈ out.companies.booking.jobs) := by
  refine ⟨rfl, buildOutput parse now fetchedAt prev [] booking linkedin
    easyAll cache, rfl, rfl, ?_, ?_⟩
  · intro r hr
    rcases mergeJobs_mem_cases parse now prev.salesforce [] hr with h | h
    · have hm := List.mem_filter.mp h
      exact ⟨hm.1, (inWindow_iff parse (mergeCutoff now) r).mp hm.2⟩
    · simp at h
  · intro b hb
    exact mergeJobs_fresh_mem parse now prev.booking booking hnd hb

/-- A booking record returned while the Salesforce adapter fails. -/
def jBk : Job :=
  { id := "bk1", title := "Senior Software Engineer", url := "https://x/bk",
    location := "Bangalore, India", department := "Engineering",
    type := "Full time", postedDate := "181600000" }

/-- C9 witness: the isolation theorem at a concrete failed run. -/
theorem adapter_failure_isolation_witness :
    fetchSalesforce parseMillis (.error "HTTP 500") = [] ∧
    ∃ out : Output,
      runMain parseMillis wNow "now" { salesforce := [wP6, wP8] }
          (.error "HTTP 500") [jBk] [] [] [] = Except.ok out ∧
      out.companies.salesforce.jobs =
        mergeJobs parseMillis wNow [wP6, wP8] [] ∧
      (∀ r ∈ out.companies.salesforce.jobs,
        r ∈ [wP6, wP8] ∧ ∃ t, parseMillis r.postedDate = some t ∧
          wNow - ROLLING_WINDOW_DAYS * 86400000 ≤ t) ∧
      (∀ b ∈ [jBk], b ∈ out.companies.booking.jobs) :=
  adapter_failure_isolation parseMillis wNow "now"
    { salesforce := [wP6, wP8] } "HTTP 500" [jBk] [] [] [] (by decide)

end FetchJobs
